import Mathlib

/-!
Verification of the mnkagent board-evaluation engine and tabular RL core.

The definitions below are a shallow embedding of the Go sources:
  * `src/game/bitmap_board.go` — the slice-based `MNKBoard` (grid, `Act`,
    `Evaluate`, `EvaluateAction`, `NewMNKBoard`, `MNKState.Clone`);
  * `src/unnamed/part_008` / `src/rlagent.go` — the tabular `RLAgent`
    (`marshallState`, `learn`, `lookup`, `value`, the exploitation loop of
    `FetchMove`).
Go `int` becomes `Int`, Go `float64` becomes `Rat` (every reward constant and
hyperparameter in the source is a small decimal, exactly representable),
grids become row-major `List (List Int)`, the Go `map[string]float64`
becomes an association list keyed by the marshalled `List Char`.
-/

namespace MnkAgent

/-- Cell read `board[y][x]` on a row-major grid.  Out-of-range reads default
to `0`; every read the Go source performs is bounds-guarded, so the two agree
on all accesses that actually occur. -/
def cell (g : List (List Int)) (y x : Int) : Int :=
  (g.getD y.toNat []).getD x.toNat 0

/-- Cell write `board[y][x] = v` (the mutation performed by `MNKBoard.Act`). -/
def setCell (g : List (List Int)) (y x v : Int) : List (List Int) :=
  g.set y.toNat ((g.getD y.toNat []).set x.toNat v)

/-- One axis loop of `MNKBoard.EvaluateAction`: the Go loop
`for i, c, d := 1, 1, 0; i < k && d < 6; i++` where `plus i` / `minus i`
decide the guarded test `bounds && board[...] == agentID` for the two senses
of the axis, a failed test sets `d |= 2` (resp. `d |= 4`), and the loop
returns whether `c >= k` was ever reached.  `fuel` bounds the recursion; all
call sites pass `k.toNat`, which the condition `i < k` (with `i` starting at
`1`) never exhausts. -/
def eaAxisGo (k : Int) (plus minus : Int → Bool) : Nat → Int → Int → Int → Bool
  | 0, _, _, _ => false
  | fuel + 1, i, c, d =>
    if i < k ∧ d < 6 then
      let c1 := if plus i then c + 1 else c
      let d1 := if plus i then d else Int.lor d 2
      let c2 := if minus i then c1 + 1 else c1
      let d2 := if minus i then d1 else Int.lor d1 4
      if k ≤ c2 then true
      else eaAxisGo k plus minus fuel (i + 1) c2 d2
    else false

/-- The trailing board-full scan of `Evaluate` / `EvaluateAction`: Go returns
`0` (game continues) at the first empty cell, `-1` (draw) if none; here we
answer whether an empty cell exists in the scanned `n × m` window. -/
def hasEmptyCell (m n : Int) (g : List (List Int)) : Bool :=
  (List.range n.toNat).any fun i =>
    (List.range m.toNat).any fun j => decide (cell g (i : Int) (j : Int) = 0)

/-- `MNKBoard.EvaluateAction` (src/game/bitmap_board.go:498-589): four axis
loops (row, column, TL-BR diagonal, TR-BL diagonal), each combining the two
senses of the axis; returns `1` on a detected win, else `-1` when the scanned
board has no empty cell, else `0`. -/
def evaluateAction (m n k : Int) (g : List (List Int)) (p aY aX : Int) : Int :=
  if eaAxisGo k
      (fun i => decide (aX + i < m) && decide (cell g aY (aX + i) = p))
      (fun i => decide (0 ≤ aX - i) && decide (cell g aY (aX - i) = p))
      k.toNat 1 1 0 then 1
  else if eaAxisGo k
      (fun i => decide (aY + i < n) && decide (cell g (aY + i) aX = p))
      (fun i => decide (0 ≤ aY - i) && decide (cell g (aY - i) aX = p))
      k.toNat 1 1 0 then 1
  else if eaAxisGo k
      (fun i => decide (aX + i < m) && decide (aY + i < n) &&
                decide (cell g (aY + i) (aX + i) = p))
      (fun i => decide (0 ≤ aX - i) && decide (0 ≤ aY - i) &&
                decide (cell g (aY - i) (aX - i) = p))
      k.toNat 1 1 0 then 1
  else if eaAxisGo k
      (fun i => decide (0 ≤ aX - i) && decide (aY + i < n) &&
                decide (cell g (aY + i) (aX - i) = p))
      (fun i => decide (aX + i < m) && decide (0 ≤ aY - i) &&
                decide (cell g (aY - i) (aX + i) = p))
      k.toNat 1 1 0 then 1
  else if hasEmptyCell m n g then 0
  else -1

/-- The shared inner loop shape of the six scans of `MNKBoard.Evaluate`:
walk `j` from its start while `j < bound`, comparing the line's cell `f j`
with its successor `f (j+1)`; on equality increment `c` and return the cell
when `c >= k && f j > 0`, on inequality reset `c` to 1.  `fuel` bounds the
recursion and every call site passes more fuel than the loop can consume. -/
def lineScan (k bound : Int) (f : Int → Int) : Nat → Int → Int → Option Int
  | 0, _, _ => none
  | fuel + 1, j, c =>
    if j < bound then
      if f j = f (j + 1) then
        if k ≤ c + 1 ∧ 0 < f j then some (f j)
        else lineScan k bound f fuel (j + 1) (c + 1)
      else lineScan k bound f fuel (j + 1) 1
    else none

/-- The shared outer loop shape of the six scans of `MNKBoard.Evaluate`: run
`inner i` for `i` from its start while `i < stop`, propagating the first
winner found. -/
def outerScan (stop : Int) (inner : Int → Option Int) : Nat → Int → Option Int
  | 0, _ => none
  | fuel + 1, i =>
    if i < stop then
      match inner i with
      | some w => some w
      | none => outerScan stop inner fuel (i + 1)
    else none

/-- Row scan of `Evaluate`: for each row `i < n`, compare `board[i][j]` with
`board[i][j+1]` for `j < m-1`. -/
def evalRows (m n k : Int) (g : List (List Int)) : Option Int :=
  outerScan n
    (fun i => lineScan k (m - 1) (fun j => cell g i j) ((m - 1).toNat + 1) 0 1)
    (n.toNat + 1) 0

/-- Column scan of `Evaluate`: for each column `j < m`, compare `board[i][j]`
with `board[i+1][j]` for `i < n-1`. -/
def evalCols (m n k : Int) (g : List (List Int)) : Option Int :=
  outerScan m
    (fun j => lineScan k (n - 1) (fun i => cell g i j) ((n - 1).toNat + 1) 0 1)
    (m.toNat + 1) 0

/-- TL-BR diagonal scan, upper half: offsets `0 ≤ o ≤ m-k`, cells
`board[i][o+i]` while `i < m-o-1 && i < n-1`. -/
def evalDiagTLBRUpper (m n k : Int) (g : List (List Int)) : Option Int :=
  outerScan (m - k + 1)
    (fun o => lineScan k (min (m - o - 1) (n - 1)) (fun i => cell g i (o + i))
      ((min (m - o - 1) (n - 1)).toNat + 1) 0 1)
    ((m - k + 1).toNat + 1) 0

/-- TL-BR diagonal scan, lower half: offsets `1 ≤ o ≤ n-k`, cells
`board[o+i][i]` while `i < m-1 && i < n-o-1`. -/
def evalDiagTLBRLower (m n k : Int) (g : List (List Int)) : Option Int :=
  outerScan (n - k + 1)
    (fun o => lineScan k (min (m - 1) (n - o - 1)) (fun i => cell g (o + i) i)
      ((min (m - 1) (n - o - 1)).toNat + 1) 0 1)
    ((n - k + 1).toNat + 1) 1

/-- TR-BL diagonal scan, upper half: offsets `0 ≤ o ≤ m-k`, cells
`board[i][m-o-i-1]` while `i < m-o-1 && i < n-1`. -/
def evalDiagTRBLUpper (m n k : Int) (g : List (List Int)) : Option Int :=
  outerScan (m - k + 1)
    (fun o => lineScan k (min (m - o - 1) (n - 1))
      (fun i => cell g i (m - o - i - 1))
      ((min (m - o - 1) (n - 1)).toNat + 1) 0 1)
    ((m - k + 1).toNat + 1) 0

/-- TR-BL diagonal scan, lower half: offsets `1 ≤ o ≤ n-k`, cells
`board[i+o][m-i-1]` while `i < m-1 && i < n-o-1`. -/
def evalDiagTRBLLower (m n k : Int) (g : List (List Int)) : Option Int :=
  outerScan (n - k + 1)
    (fun o => lineScan k (min (m - 1) (n - o - 1))
      (fun i => cell g (i + o) (m - i - 1))
      ((min (m - 1) (n - o - 1)).toNat + 1) 0 1)
    ((n - k + 1).toNat + 1) 1

/-- `MNKBoard.Evaluate` (src/game/bitmap_board.go:399-496): the six scans in
source order, then the board-full check (`0` = continue, `-1` = draw). -/
def evaluate (m n k : Int) (g : List (List Int)) : Int :=
  match evalRows m n k g with
  | some w => w
  | none =>
  match evalCols m n k g with
  | some w => w
  | none =>
  match evalDiagTLBRUpper m n k g with
  | some w => w
  | none =>
  match evalDiagTLBRLower m n k g with
  | some w => w
  | none =>
  match evalDiagTRBLUpper m n k g with
  | some w => w
  | none =>
  match evalDiagTRBLLower m n k g with
  | some w => w
  | none => if hasEmptyCell m n g then 0 else -1

/-- `MNKBoard.Act` (src/game/bitmap_board.go:370-397): validate range, then
occupancy, then write the cell and map the post-write `EvaluateAction` result
to the reward (`1 ↦ +1`, `0 ↦ 0`, `-1 ↦ -0.5`, default `0`). -/
def act (m n k : Int) (g : List (List Int)) (p aY aX : Int) :
    Except String (Rat × List (List Int)) :=
  if aX < 0 ∨ m ≤ aX ∨ aY < 0 ∨ n ≤ aY then
    .error "environment: move out of range"
  else if cell g aY aX ≠ 0 then
    .error "environment: invalid move"
  else
    let g' := setCell g aY aX p
    let r := evaluateAction m n k g' p aY aX
    if r = 1 then .ok (1, g')
    else if r = 0 then .ok (0, g')
    else if r = -1 then .ok (-1/2, g')
    else .ok (0, g')

/-- The board record produced by `NewMNKBoard`. -/
structure MNKBoard where
  m : Int
  n : Int
  k : Int
  board : List (List Int)

/-- The all-empty grid `Reset` installs. -/
def emptyGrid (m n : Int) : List (List Int) :=
  List.replicate n.toNat (List.replicate m.toNat 0)

/-- `NewMNKBoard` (src/game/bitmap_board.go:330-345): rejects parameters with
`k > m && k > n`, otherwise returns a board with a reset grid. -/
def newMNKBoard (m n k : Int) : Option MNKBoard :=
  if k > m ∧ k > n then none
  else some ⟨m, n, k, emptyGrid m n⟩

/-- Strictly contiguous walk used by the spec's edge-case policy: counts the
cells holding mark `p` starting at `(y, x)` and stepping by `(dy, dx)`,
stopping at the first out-of-bounds or non-matching cell.  `fuel` bounds the
walk and is always passed larger than the board. -/
def contigCount (m n : Int) (g : List (List Int)) (p : Int) :
    Nat → Int → Int → Int → Int → Nat
  | 0, _, _, _, _ => 0
  | fuel + 1, y, x, dy, dx =>
    if 0 ≤ y ∧ y < n ∧ 0 ≤ x ∧ x < m ∧ cell g y x = p then
      contigCount m n g p fuel (y + dy) (x + dx) dy dx + 1
    else 0

/-- Modelled from the spec's edge-case policy for `EvaluateAction`: the total
contiguous count through the cell placed at `(y, x)` along the axis with step
`(dy, dx)` — both senses of the axis plus one for the placed cell itself. -/
def specAxisCount (m n : Int) (g : List (List Int)) (p y x dy dx : Int) : Nat :=
  1 + contigCount m n g p (m + n).toNat (y + dy) (x + dx) dy dx
    + contigCount m n g p (m + n).toNat (y - dy) (x - dx) (-dy) (-dx)

/-- Modelled from the spec: placing `p` at `(y, x)` completes a win exactly
when, on at least one of the four axes, the strictly contiguous count through
the placed cell (including it) is at least `k`. -/
def specContiguousWin (m n k : Int) (g : List (List Int)) (p y x : Int) : Bool :=
  decide (k ≤ (specAxisCount m n g p y x 0 1 : Int)) ||
  decide (k ≤ (specAxisCount m n g p y x 1 0 : Int)) ||
  decide (k ≤ (specAxisCount m n g p y x 1 1 : Int)) ||
  decide (k ≤ (specAxisCount m n g p y x 1 (-1) : Int))

/-- Modelled from the spec for `Evaluate`: a run of at least `k` identical
non-zero marks `p` exists in one of the four directions (horizontal,
vertical, the two diagonals), entirely inside the `n × m` board. -/
def specRunExists (m n k : Int) (g : List (List Int)) (p : Int) : Prop :=
  p ≠ 0 ∧ ∃ y x dy dx : Int,
    ((dy, dx) = (0, 1) ∨ (dy, dx) = (1, 0) ∨ (dy, dx) = (1, 1) ∨
      (dy, dx) = (1, -1)) ∧
    ∀ t : Int, 0 ≤ t → t < k →
      0 ≤ y + t * dy ∧ y + t * dy < n ∧ 0 ≤ x + t * dx ∧ x + t * dx < m ∧
      cell g (y + t * dy) (x + t * dx) = p

/-- C1.  The claimed equivalence between `EvaluateAction(p,a)` on the
pre-move board and `Act(p,a)` followed by `Evaluate()` fails on the board
`[[1,0,0,1]]` (m=4, n=1, k=3) at the legal action (x=1, y=0) for agent 1:
`EvaluateAction` reports a win (1) because its direction-stop flag `d` does
not prevent the mark at x=3, beyond the gap at x=2, from being counted, while
`Act` then `Evaluate` classifies the position as game-continuing (0). -/
theorem c1_equivalence_fails_on_gap_board :
    evaluateAction 4 1 3 [[1, 0, 0, 1]] 1 0 1 = 1 ∧
    act 4 1 3 [[1, 0, 0, 1]] 1 0 1 = .ok (1, [[1, 1, 0, 1]]) ∧
    evaluate 4 1 3 [[1, 1, 0, 1]] = 0 :=
  ⟨by decide, rfl, by decide⟩

/-- C2.  `EvaluateAction` returning 1 is not equivalent to a strictly
contiguous run of length ≥ k through the placed cell: on the 4×4 board with
marks at (0,0) and (3,3) and k=3, placing agent 1 at (y=1, x=1) yields
`EvaluateAction = 1`, counting the mark at (3,3) that is separated from the
placed cell by the gap at (2,2), although the contiguous count on every axis
is below 3. -/
theorem c2_gap_mark_counted_as_win :
    evaluateAction 4 4 3 [[1, 0, 0, 0], [0, 0, 0, 0], [0, 0, 0, 0], [0, 0, 0, 1]] 1 1 1 = 1 ∧
    specContiguousWin 4 4 3 [[1, 0, 0, 0], [0, 0, 0, 0], [0, 0, 0, 0], [0, 0, 0, 1]] 1 1 1 = false :=
  ⟨by decide, by decide⟩

/-- C3.  `Evaluate` misses runs of length 1: on the board `[[1]]` of a
validly constructed (m=1, n=1, k=1) game — reachable by `Act(1,(0,0))` from
the empty board — a run of length ≥ k of agent 1's marks exists, yet
`Evaluate` returns -1 (draw) instead of the winning agent's id 1, because its
scans only count adjacent equal pairs and never see single-cell runs. -/
theorem c3_evaluate_misses_k1_run :
    specRunExists 1 1 1 [[1]] 1 ∧
    act 1 1 1 [[0]] 1 0 0 = .ok (-1/2, [[1]]) ∧
    evaluate 1 1 1 [[1]] = -1 := by
  refine ⟨⟨by decide, 0, 0, 0, 1, Or.inl rfl, ?_⟩, rfl, by decide⟩
  intro t ht0 ht1
  have ht : t = 0 := by omega
  subst ht
  decide

/-- C4.  `Act` on a legal move can return reward +1 although the move does
not win and the game continues: on the board `[[1],[0],[0],[1]]` (m=1, n=4,
k=3), the legal action (x=0, y=1) for agent 1 gets reward 1 from `Act`
(via the gap-counting `EvaluateAction` on the post-move board), while
`Evaluate` on the post-move board returns 0 (game continues), under which
the claim requires reward 0. -/
theorem c4_act_reward_one_on_nonwinning_move :
    act 1 4 3 [[1], [0], [0], [1]] 1 1 0 = .ok (1, [[1], [1], [0], [1]]) ∧
    evaluate 1 4 3 [[1], [1], [0], [1]] = 0 :=
  ⟨rfl, by decide⟩

/-- C8.  The constructor accepts k = n = 1 (since k ≤ m), yet a full-length
column run is not reported as a win: `NewMNKBoard(2,1,1)` succeeds, the board
`[[1,0]]` holds a full-length (length k = n = 1) run of agent 1 down column
0, and `Evaluate` returns 0 (game continues) instead of a win. -/
theorem c8_exact_fit_k1_column_run_not_detected :
    newMNKBoard 2 1 1 = some ⟨2, 1, 1, [[0, 0]]⟩ ∧
    specRunExists 2 1 1 [[1, 0]] 1 ∧
    evaluate 2 1 1 [[1, 0]] = 0 := by
  refine ⟨rfl, ⟨by decide, 0, 0, 1, 0, Or.inr (Or.inl rfl), ?_⟩, by decide⟩
  intro t ht0 ht1
  have ht : t = 0 := by omega
  subst ht
  decide

/-- Per-cell symbol of the marshalled state: `-` for empty, `X` for the
querying agent's own mark, `O` for any other mark. -/
def markCell (p v : Int) : Char :=
  if v = 0 then '-' else if v = p then 'X' else 'O'

/-- Inner loop of `marshallState` over one row: `i` is the row index, `j` the
running column index; the action's cell is forced to `X`. -/
def marshallRowGo (p aY aX i : Int) : List Int → Int → List Char
  | [], _ => []
  | v :: rest, j =>
    (if i = aY ∧ j = aX then 'X' else markCell p v) ::
      marshallRowGo p aY aX i rest (j + 1)

/-- Outer loop of `marshallState` over the rows. -/
def marshallGo (p aY aX : Int) : List (List Int) → Int → List Char
  | [], _ => []
  | row :: rest, i => marshallRowGo p aY aX i row 0 ++ marshallGo p aY aX rest (i + 1)

/-- `marshallState` (src/unnamed/part_008:440-464, src/rlagent.go:245-265):
canonical key of a state from agent `p`'s perspective with the candidate
action's cell rendered as the own-mark symbol. -/
def marshallState (p : Int) (s : List (List Int)) (aY aX : Int) : List Char :=
  marshallGo p aY aX s 0

/-- The agent's value table `map[string]float64`, as an association list. -/
abbrev Table := List (List Char × Rat)

/-- Map read `tbl[key]` returning whether the key is present. -/
def tblGet : Table → List Char → Option Rat
  | [], _ => none
  | (k, v) :: rest, key => if k = key then some v else tblGet rest key

/-- Map write `tbl[key] = v`: replaces the bound value or appends the key. -/
def tblSet : Table → List Char → Rat → Table
  | [], key, v => [(key, v)]
  | (k, w) :: rest, key, v =>
    if k = key then (key, v) :: rest else (k, w) :: tblSet rest key v

/-- `RLAgent.learn` (src/unnamed/part_008:377-398): no-op on an empty buffered
state; otherwise the TD update on the marshalled previous transition when its
key exists, and the raw previous reward when it does not. -/
def learnStep (alpha gamma : Rat) (id : Int) (prevState : List (List Int))
    (prevAY prevAX : Int) (prevReward qMax : Rat) (tbl : Table) : Table :=
  if prevState.length = 0 then tbl
  else
    let mState := marshallState id prevState prevAY prevAX
    match tblGet tbl mState with
    | some oldVal =>
        tblSet tbl mState (oldVal + alpha * (prevReward + gamma * qMax - oldVal))
    | none => tblSet tbl mState prevReward

/-- `RLAgent.learn` (src/rlagent.go:149-164): same update where an absent key
reads the Go map's zero value. -/
def learnStepLegacy (alpha gamma : Rat) (id : Int) (prevState : List (List Int))
    (prevAY prevAX : Int) (prevReward qMax : Rat) (tbl : Table) : Table :=
  if prevState.length = 0 then tbl
  else
    let mState := marshallState id prevState prevAY prevAX
    let oldVal := (tblGet tbl mState).getD 0
    tblSet tbl mState (oldVal + alpha * (prevReward + gamma * qMax - oldVal))

/-- `RLAgent.value` (src/unnamed/part_008:411-438): the sentinel action
(-1,-1) maps the whole-board `Evaluate` result (own id to 1, 0 to 0, -1 to
-0.5, anything else to -1); any other action maps the `EvaluateAction` result
(1 to 1, 0 to 0, -1 to -0.5, default 0).  The environment is the `MNKBoard`
given by `m`, `n`, `k` and its current grid `g`; the agent's state snapshot
is ignored by the source. -/
def valueFn (m n k : Int) (g : List (List Int)) (id aY aX : Int) : Rat :=
  if aY = -1 ∧ aX = -1 then
    let r := evaluate m n k g
    if r = id then 1 else if r = 0 then 0 else if r = -1 then -1/2 else -1
  else
    let r := evaluateAction m n k g id aY aX
    if r = 1 then 1 else if r = 0 then 0 else if r = -1 then -1/2 else 0

/-- `RLAgent.lookup` (src/unnamed/part_008:400-409): return the cached value
of the marshalled key, or compute the estimate via `value`, cache it and
return it.  Returns the value together with the updated table. -/
def lookupFn (m n k : Int) (g : List (List Int)) (id : Int) (tbl : Table)
    (s : List (List Int)) (aY aX : Int) : Rat × Table :=
  let mState := marshallState id s aY aX
  match tblGet tbl mState with
  | some v => (v, tbl)
  | none =>
    let v := valueFn m n k g id aY aX
    (v, tblSet tbl mState v)

theorem tblGet_tblSet_self (tbl : Table) (key : List Char) (v : Rat) :
    tblGet (tblSet tbl key v) key = some v := by
  induction tbl with
  | nil => simp [tblSet, tblGet]
  | cons hd rest ih =>
    obtain ⟨k, w⟩ := hd
    by_cases hk : k = key
    · simp [tblSet, hk, tblGet]
    · simp [tblSet, hk, tblGet, ih]

/-- C5.  When a previous transition is buffered (non-empty previous state)
and its marshalled key holds the prior value Q, `learn` rewrites that entry
to `Q + alpha * (r_prev + gamma * qMax - Q)` — in both the part_008 and the
rlagent.go revision; with alpha = 0.2, gamma = 0.8, r_prev = 0, prior Q = 0
and qMax = 1 the updated entry is 0.16; and with no buffered previous state
the table is unchanged. -/
theorem c5_td_update :
    (∀ (alpha gamma : Rat) (id : Int) (ps : List (List Int)) (aY aX : Int)
        (r qMax Q : Rat) (tbl : Table),
        ps ≠ [] →
        tblGet tbl (marshallState id ps aY aX) = some Q →
        tblGet (learnStep alpha gamma id ps aY aX r qMax tbl)
            (marshallState id ps aY aX) =
          some (Q + alpha * (r + gamma * qMax - Q))) ∧
    (∀ (alpha gamma : Rat) (id : Int) (ps : List (List Int)) (aY aX : Int)
        (r qMax Q : Rat) (tbl : Table),
        ps ≠ [] →
        tblGet tbl (marshallState id ps aY aX) = some Q →
        tblGet (learnStepLegacy alpha gamma id ps aY aX r qMax tbl)
            (marshallState id ps aY aX) =
          some (Q + alpha * (r + gamma * qMax - Q))) ∧
    ((0 : Rat) + 0.2 * (0 + 0.8 * 1 - 0) = 0.16) ∧
    (∀ (alpha gamma : Rat) (id aY aX : Int) (r qMax : Rat) (tbl : Table),
        learnStep alpha gamma id [] aY aX r qMax tbl = tbl) := by
  refine ⟨?_, ?_, by norm_num, ?_⟩
  · intro alpha gamma id ps aY aX r qMax Q tbl hps hget
    have hlen : ¬ ps.length = 0 := by simpa using hps
    simp only [learnStep, hlen, if_false, hget]
    exact tblGet_tblSet_self ..
  · intro alpha gamma id ps aY aX r qMax Q tbl hps hget
    have hlen : ¬ ps.length = 0 := by simpa using hps
    simp only [learnStepLegacy, hlen, if_false, hget, Option.getD_some]
    exact tblGet_tblSet_self ..
  · intro alpha gamma id aY aX r qMax tbl
    simp [learnStep]

/-- Witness for C5: the TD-update scenario on a concrete 3×3 empty previous
state whose key is cached with value 0 yields the entry 0.16. -/
theorem c5_td_update_witness :
    tblGet (learnStep 0.2 0.8 1 [[0, 0, 0], [0, 0, 0], [0, 0, 0]] 0 0 0 1
        [(marshallState 1 [[0, 0, 0], [0, 0, 0], [0, 0, 0]] 0 0, 0)])
        (marshallState 1 [[0, 0, 0], [0, 0, 0], [0, 0, 0]] 0 0) =
      some (0 + 0.2 * (0 + 0.8 * 1 - 0)) :=
  c5_td_update.1 0.2 0.8 1 [[0, 0, 0], [0, 0, 0], [0, 0, 0]] 0 0 0 1 0 _
    (by decide) (by decide)

/-- C6.  `lookup` semantics: on an absent key it computes the one-step
estimate from the environment, stores it under the key and returns it; on a
present key it returns the stored value with the table untouched; hence for
a fixed table and state-action pair, a repeated `lookup` returns the same
value and leaves the table as the first call left it.  The estimate maps an
`EvaluateAction` result 1 to +1, 0 to 0, -1 to -0.5; for the sentinel action
(-1,-1) it maps `Evaluate` returning the agent's own id to +1, 0 to 0, -1 to
-0.5, and any other winner to -1. -/
theorem c6_lookup_lazy_init_and_determinism :
    (∀ (m n k : Int) (g : List (List Int)) (id : Int) (tbl : Table)
        (s : List (List Int)) (aY aX : Int),
        tblGet tbl (marshallState id s aY aX) = none →
        lookupFn m n k g id tbl s aY aX =
          (valueFn m n k g id aY aX,
           tblSet tbl (marshallState id s aY aX) (valueFn m n k g id aY aX))) ∧
    (∀ (m n k : Int) (g : List (List Int)) (id : Int) (tbl : Table)
        (s : List (List Int)) (aY aX : Int) (v : Rat),
        tblGet tbl (marshallState id s aY aX) = some v →
        lookupFn m n k g id tbl s aY aX = (v, tbl)) ∧
    (∀ (m n k : Int) (g : List (List Int)) (id : Int) (tbl : Table)
        (s : List (List Int)) (aY aX : Int),
        lookupFn m n k g id (lookupFn m n k g id tbl s aY aX).2 s aY aX =
          ((lookupFn m n k g id tbl s aY aX).1,
           (lookupFn m n k g id tbl s aY aX).2)) ∧
    (∀ (m n k : Int) (g : List (List Int)) (id aY aX : Int),
        ¬(aY = -1 ∧ aX = -1) →
        (evaluateAction m n k g id aY aX = 1 → valueFn m n k g id aY aX = 1) ∧
        (evaluateAction m n k g id aY aX = 0 → valueFn m n k g id aY aX = 0) ∧
        (evaluateAction m n k g id aY aX = -1 →
          valueFn m n k g id aY aX = -1/2)) ∧
    (∀ (m n k : Int) (g : List (List Int)) (id : Int),
        (evaluate m n k g = id → valueFn m n k g id (-1) (-1) = 1) ∧
        (id ≠ 0 → evaluate m n k g = 0 → valueFn m n k g id (-1) (-1) = 0) ∧
        (id ≠ -1 → evaluate m n k g = -1 →
          valueFn m n k g id (-1) (-1) = -1/2) ∧
        (evaluate m n k g ≠ id → evaluate m n k g ≠ 0 →
          evaluate m n k g ≠ -1 → valueFn m n k g id (-1) (-1) = -1)) := by
  refine ⟨?_, ?_, ?_, ?_, ?_⟩
  · intro m n k g id tbl s aY aX hnone
    simp [lookupFn, hnone]
  · intro m n k g id tbl s aY aX v hsome
    simp [lookupFn, hsome]
  · intro m n k g id tbl s aY aX
    rcases hget : tblGet tbl (marshallState id s aY aX) with _ | v
    · simp [lookupFn, hget, tblGet_tblSet_self]
    · simp [lookupFn, hget]
  · intro m n k g id aY aX hsent
    refine ⟨fun h => ?_, fun h => ?_, fun h => ?_⟩ <;>
      simp [valueFn, hsent, h]
  · intro m n k g id
    refine ⟨fun h => ?_, fun h0 h => ?_, fun h1 h => ?_, fun ha hb hc => ?_⟩
    · simp [valueFn, h]
    · have hne : (0 : Int) ≠ id := fun hh => h0 hh.symm
      simp [valueFn, h, hne]
    · have hne : (-1 : Int) ≠ id := fun hh => h1 hh.symm
      simp [valueFn, h, hne]
    · simp [valueFn, ha, hb, hc]

/-- Witness for C6: on the empty table, looking up the winning move (y=0,
x=2) of agent 1 on the 3×3 board with a row `[1,1,0]` caches and returns the
estimate +1. -/
theorem c6_lookup_witness :
    lookupFn 3 3 3 [[1, 1, 0], [0, 0, 0], [0, 0, 0]] 1 []
        [[1, 1, 0], [0, 0, 0], [0, 0, 0]] 0 2 =
      (valueFn 3 3 3 [[1, 1, 0], [0, 0, 0], [0, 0, 0]] 1 0 2,
       tblSet [] (marshallState 1 [[1, 1, 0], [0, 0, 0], [0, 0, 0]] 0 2)
         (valueFn 3 3 3 [[1, 1, 0], [0, 0, 0], [0, 0, 0]] 1 0 2)) :=
  c6_lookup_lazy_init_and_determinism.1 3 3 3
    [[1, 1, 0], [0, 0, 0], [0, 0, 0]] 1 []
    [[1, 1, 0], [0, 0, 0], [0, 0, 0]] 0 2 rfl

theorem marshallRowGo_ne (p aY aX i : Int) (h : i ≠ aY) :
    ∀ (row : List Int) (j : Int),
      marshallRowGo p aY aX i row j = row.map (markCell p) := by
  intro row
  induction row with
  | nil => intro j; simp [marshallRowGo]
  | cons v rest ih =>
    intro j
    simp [marshallRowGo, h, ih (j + 1)]

theorem marshallRowGo_past (p aY aX i : Int) :
    ∀ (row : List Int) (j : Int), aX < j →
      marshallRowGo p aY aX i row j = row.map (markCell p) := by
  intro row
  induction row with
  | nil => intro j _; simp [marshallRowGo]
  | cons v rest ih =>
    intro j hj
    have h1 : j ≠ aX := by omega
    simp [marshallRowGo, h1, ih (j + 1) (by omega)]

theorem marshallRowGo_set (p aY : Int) (hp : p ≠ 0) :
    ∀ (row : List Int) (xn : Nat) (j : Int),
      marshallRowGo p aY (j + (xn : Int)) aY row j =
        (row.set xn p).map (markCell p) := by
  intro row
  induction row with
  | nil => intro xn j; simp [marshallRowGo]
  | cons v rest ih =>
    intro xn j
    cases xn with
    | zero =>
      have hX : markCell p p = 'X' := by simp [markCell, hp]
      have htail := marshallRowGo_past p aY j aY rest (j + 1) (by omega)
      simp [marshallRowGo, hX, htail]
    | succ xn =>
      have hcond : j ≠ j + (((xn : Nat) + 1 : Nat) : Int) := by
        push_cast; omega
      have hidx : j + (((xn : Nat) + 1 : Nat) : Int) = (j + 1) + (xn : Int) := by
        push_cast; ring
      rw [show ((v :: rest).set (xn + 1) p) = v :: rest.set xn p from rfl]
      simp only [marshallRowGo, hcond, and_false, if_false, List.map_cons]
      rw [hidx, ih xn (j + 1)]

theorem marshallGo_plain (p aY aX : Int) :
    ∀ (rows : List (List Int)) (i : Int), aY < i →
      marshallGo p aY aX rows i =
        (rows.map fun row => row.map (markCell p)).flatten := by
  intro rows
  induction rows with
  | nil => intro i _; simp [marshallGo]
  | cons row rest ih =>
    intro i hi
    have hne : i ≠ aY := by omega
    simp [marshallGo, marshallRowGo_ne p aY aX i hne, ih (i + 1) (by omega)]

theorem marshallGo_set (p aX : Int) (hp : p ≠ 0) (hx : 0 ≤ aX) :
    ∀ (s : List (List Int)) (yn : Nat) (i : Int), 0 ≤ i →
      marshallGo p (i + (yn : Int)) aX s i =
        marshallGo p (-1) (-1) (s.set yn ((s.getD yn []).set aX.toNat p)) i := by
  intro s
  induction s with
  | nil => intro yn i _; simp [marshallGo]
  | cons row rest ih =>
    intro yn i hi
    cases yn with
    | zero =>
      have hrow := marshallRowGo_set p i hp row aX.toNat 0
      have hx' : (0 : Int) + (aX.toNat : Int) = aX := by omega
      rw [hx'] at hrow
      have htail := marshallGo_plain p i aX rest (i + 1) (by omega)
      have hrow' := marshallRowGo_ne p (-1) (-1) i (by omega)
        ((row.set aX.toNat p)) 0
      have htail' := marshallGo_plain p (-1) (-1) rest (i + 1) (by omega)
      simp only [Nat.cast_zero, add_zero, marshallGo, List.set,
        List.getD_cons_zero, hrow, htail, hrow', htail']
    | succ yn =>
      have hne : i ≠ i + (((yn : Nat) + 1 : Nat) : Int) := by push_cast; omega
      have hidx : i + (((yn : Nat) + 1 : Nat) : Int) = (i + 1) + (yn : Int) := by
        push_cast; ring
      have hhd := marshallRowGo_ne p (i + (((yn : Nat) + 1 : Nat) : Int)) aX i
        hne row 0
      have hhd' := marshallRowGo_ne p (-1) (-1) i (by omega) row 0
      have htl := ih yn (i + 1) (by omega)
      rw [show ((row :: rest).set (yn + 1)
            (((row :: rest).getD (yn + 1) []).set aX.toNat p)) =
          row :: rest.set yn ((rest.getD yn []).set aX.toNat p) from by
        simp [List.getD_cons_succ]]
      simp only [marshallGo, hhd, hhd']
      rw [hidx, htl]

/-- C10.  For a nonzero agent id `p` and an in-range action, the marshalled
key of `(state, action)` coincides with the marshalled key of the post-move
state (the action's cell overwritten with `p`'s own mark) rendered with the
sentinel action (-1,-1): scoring a candidate move and `GameOver`'s terminal
lookup address the same table entries. -/
theorem c10_action_key_equals_postmove_sentinel_key :
    ∀ (p : Int) (s : List (List Int)) (aY aX : Int),
      p ≠ 0 → 0 ≤ aY → aY < (s.length : Int) → 0 ≤ aX →
      aX < ((s.getD aY.toNat []).length : Int) →
      marshallState p s aY aX = marshallState p (setCell s aY aX p) (-1) (-1) := by
  intro p s aY aX hp hy0 _ hx0 _
  have h := marshallGo_set p aX hp hx0 s aY.toNat 0 le_rfl
  have hcast : (0 : Int) + (aY.toNat : Int) = aY := by omega
  rw [hcast] at h
  simpa [marshallState, setCell] using h

/-- Witness for C10: agent 1's key for action (y=1, x=0) on the state
`[[0,2],[0,0]]` equals the sentinel key of the state with that cell set
to 1. -/
theorem c10_action_key_witness :
    marshallState 1 [[0, 2], [0, 0]] 1 0 =
      marshallState 1 (setCell [[0, 2], [0, 0]] 1 0 1) (-1) (-1) :=
  c10_action_key_equals_postmove_sentinel_key 1 [[0, 2], [0, 0]] 1 0
    (by decide) (by decide) (by decide) (by decide) (by decide)

/-- Accumulator of the exploitation loop of `RLAgent.FetchMove`
(src/unnamed/part_008:319-338): the `first` flag, the best value `qMax`, the
chosen `action` (a `(y, x)` pair, Go zero value `(0,0)`), and the value
table mutated by the embedded `lookup` calls. -/
structure ExpAcc where
  first : Bool
  qMax : Rat
  act : Int × Int
  tbl : Table

/-- The loop body of the exploitation branch at an empty cell `(i, j)`:
`v := agent.lookup(s, a)` then `if v > qMax || first { qMax, action, first =
v, a, false }`. -/
def exploitStep (m n k : Int) (g : List (List Int)) (id : Int)
    (s : List (List Int)) (acc : ExpAcc) (i j : Int) : ExpAcc :=
  let r := lookupFn m n k g id acc.tbl s i j
  if r.1 > acc.qMax ∨ acc.first = true then
    ⟨false, r.1, (i, j), r.2⟩
  else
    ⟨acc.first, acc.qMax, acc.act, r.2⟩

/-- Inner loop `for j := range s[i]` of the exploitation branch, running the
body only on cells with `s[i][j] == 0`. -/
def exploitRow (m n k : Int) (g : List (List Int)) (id : Int)
    (s : List (List Int)) (i : Int) : List Int → Int → ExpAcc → ExpAcc
  | [], _, acc => acc
  | v :: rest, j, acc =>
    exploitRow m n k g id s i rest (j + 1)
      (if v = 0 then exploitStep m n k g id s acc i j else acc)

/-- Outer loop `for i := range s` of the exploitation branch. -/
def exploitRows (m n k : Int) (g : List (List Int)) (id : Int)
    (s : List (List Int)) : List (List Int) → Int → ExpAcc → ExpAcc
  | [], _, acc => acc
  | row :: rest, i, acc =>
    exploitRows m n k g id s rest (i + 1) (exploitRow m n k g id s i row 0 acc)

/-- The whole exploitation branch of `RLAgent.FetchMove`: scan the state's
cells in row-major order starting from `first = true`, `qMax = 0` and the
zero-value action `(0, 0)`. -/
def exploit (m n k : Int) (g : List (List Int)) (id : Int)
    (s : List (List Int)) (tbl : Table) : ExpAcc :=
  exploitRows m n k g id s s 0 ⟨true, 0, (0, 0), tbl⟩

/-- The `(cell, value)` pairs the exploitation loop inspects, in visiting
order, threading the table through the caching `lookup` exactly as the loop
does; paired with the final table. -/
def scanRow (m n k : Int) (g : List (List Int)) (id : Int)
    (s : List (List Int)) (i : Int) :
    List Int → Int → Table → List ((Int × Int) × Rat) × Table
  | [], _, tbl => ([], tbl)
  | v :: rest, j, tbl =>
    if v = 0 then
      let r := lookupFn m n k g id tbl s i j
      let pr := scanRow m n k g id s i rest (j + 1) r.2
      (((i, j), r.1) :: pr.1, pr.2)
    else scanRow m n k g id s i rest (j + 1) tbl

/-- Row-level collection of the inspected `(cell, value)` pairs. -/
def scanRows (m n k : Int) (g : List (List Int)) (id : Int)
    (s : List (List Int)) :
    List (List Int) → Int → Table → List ((Int × Int) × Rat) × Table
  | [], _, tbl => ([], tbl)
  | row :: rest, i, tbl =>
    let pr := scanRow m n k g id s i row 0 tbl
    let pr' := scanRows m n k g id s rest (i + 1) pr.2
    (pr.1 ++ pr'.1, pr'.2)

/-- The value sequence the exploitation branch evaluates over the state's
empty cells, in row-major order. -/
def scanPairs (m n k : Int) (g : List (List Int)) (id : Int)
    (s : List (List Int)) (tbl : Table) : List ((Int × Int) × Rat) :=
  (scanRows m n k g id s s 0 tbl).1

/-- Row-major enumeration of the empty cells of a state, as the loops
`for i := range s { for j := range s[i] { if s[i][j] == 0 ... } }` visit
them. -/
def emptiesRow (i : Int) : List Int → Int → List (Int × Int)
  | [], _ => []
  | v :: rest, j =>
    if v = 0 then (i, j) :: emptiesRow i rest (j + 1)
    else emptiesRow i rest (j + 1)

/-- Row-major enumeration of the empty cells over all rows. -/
def emptiesRows : List (List Int) → Int → List (Int × Int)
  | [], _ => []
  | row :: rest, i => emptiesRow i row 0 ++ emptiesRows rest (i + 1)

/-- All empty cells of a state, row-major. -/
def emptiesRowMajor (s : List (List Int)) : List (Int × Int) :=
  emptiesRows s 0

/-- The pure comparison fold the exploitation loop performs on the inspected
pairs: strict improvement, with the `first` flag forcing the initial pick. -/
def bestFold : List ((Int × Int) × Rat) → Bool × Rat × (Int × Int) →
    Bool × Rat × (Int × Int)
  | [], b => b
  | p :: rest, (first, q, a) =>
    bestFold rest (if p.2 > q ∨ first = true then (false, p.2, p.1) else (first, q, a))

/-- Packs a comparison-fold result and a table into an accumulator. -/
def mkAcc (t : Bool × Rat × (Int × Int)) (tbl : Table) : ExpAcc :=
  ⟨t.1, t.2.1, t.2.2, tbl⟩

theorem bestFold_cons (p : (Int × Int) × Rat) (rest : List ((Int × Int) × Rat))
    (first : Bool) (q : Rat) (a : Int × Int) :
    bestFold (p :: rest) (first, q, a) =
      bestFold rest
        (if p.2 > q ∨ first = true then (false, p.2, p.1) else (first, q, a)) :=
  rfl

theorem exploitRow_scan (m n k : Int) (g : List (List Int)) (id : Int)
    (s : List (List Int)) (i : Int) :
    ∀ (row : List Int) (j : Int) (acc : ExpAcc),
      exploitRow m n k g id s i row j acc =
        mkAcc (bestFold (scanRow m n k g id s i row j acc.tbl).1
                (acc.first, acc.qMax, acc.act))
              (scanRow m n k g id s i row j acc.tbl).2 := by
  intro row
  induction row with
  | nil => intro j acc; rfl
  | cons v rest ih =>
    intro j acc
    by_cases hv : v = 0
    · simp only [exploitRow, scanRow, hv, if_true]
      rw [ih (j + 1) (exploitStep m n k g id s acc i j), bestFold_cons]
      rcases Decidable.em
          ((lookupFn m n k g id acc.tbl s i j).1 > acc.qMax ∨
            acc.first = true) with hc | hc
      · rw [if_pos hc]
        have hacc : exploitStep m n k g id s acc i j =
            ⟨false, (lookupFn m n k g id acc.tbl s i j).1, (i, j),
             (lookupFn m n k g id acc.tbl s i j).2⟩ := by
          simp only [exploitStep, if_pos hc]
        rw [hacc]
      · rw [if_neg hc]
        have hacc : exploitStep m n k g id s acc i j =
            ⟨acc.first, acc.qMax, acc.act,
             (lookupFn m n k g id acc.tbl s i j).2⟩ := by
          simp only [exploitStep, if_neg hc]
        rw [hacc]
    · simp only [exploitRow, scanRow, hv, if_false]
      exact ih (j + 1) acc

theorem bestFold_append (xs ys : List ((Int × Int) × Rat))
    (t : Bool × Rat × (Int × Int)) :
    bestFold (xs ++ ys) t = bestFold ys (bestFold xs t) := by
  induction xs generalizing t with
  | nil => rfl
  | cons p rest ih =>
    obtain ⟨first, q, a⟩ := t
    simp only [List.cons_append, bestFold]
    exact ih _

theorem exploitRows_scan (m n k : Int) (g : List (List Int)) (id : Int)
    (s : List (List Int)) :
    ∀ (rows : List (List Int)) (i : Int) (acc : ExpAcc),
      exploitRows m n k g id s rows i acc =
        mkAcc (bestFold (scanRows m n k g id s rows i acc.tbl).1
                (acc.first, acc.qMax, acc.act))
              (scanRows m n k g id s rows i acc.tbl).2 := by
  intro rows
  induction rows with
  | nil => intro i acc; rfl
  | cons row rest ih =>
    intro i acc
    simp only [exploitRows, scanRows]
    rw [exploitRow_scan m n k g id s i row 0 acc, ih (i + 1)]
    rw [bestFold_append]
    rfl

theorem scanRow_cells (m n k : Int) (g : List (List Int)) (id : Int)
    (s : List (List Int)) (i : Int) :
    ∀ (row : List Int) (j : Int) (tbl : Table),
      (scanRow m n k g id s i row j tbl).1.map Prod.fst = emptiesRow i row j := by
  intro row
  induction row with
  | nil => intro j tbl; rfl
  | cons v rest ih =>
    intro j tbl
    by_cases hv : v = 0
    · simp only [scanRow, emptiesRow, hv, if_true, List.map_cons]
      rw [ih]
    · simp only [scanRow, emptiesRow, hv, if_false]
      exact ih (j + 1) tbl

theorem scanRows_cells (m n k : Int) (g : List (List Int)) (id : Int)
    (s : List (List Int)) :
    ∀ (rows : List (List Int)) (i : Int) (tbl : Table),
      (scanRows m n k g id s rows i tbl).1.map Prod.fst = emptiesRows rows i := by
  intro rows
  induction rows with
  | nil => intro i tbl; rfl
  | cons row rest ih =>
    intro i tbl
    simp only [scanRows, emptiesRows, List.map_append]
    rw [scanRow_cells, ih]

theorem bestFold_false (ps : List ((Int × Int) × Rat)) :
    ∀ (q : Rat) (a : Int × Int),
      (bestFold ps (false, q, a) = (false, q, a) ∧ ∀ r ∈ ps, r.2 ≤ q) ∨
      (∃ idx p, ps.get? idx = some p ∧
        bestFold ps (false, q, a) = (false, p.2, p.1) ∧ q < p.2 ∧
        (∀ r ∈ ps, r.2 ≤ p.2) ∧
        (∀ j, j < idx → ∀ r, ps.get? j = some r → r.2 < p.2)) := by
  induction ps with
  | nil => intro q a; left; exact ⟨rfl, by simp⟩
  | cons p rest ih =>
    intro q a
    by_cases hq : p.2 > q
    · right
      have hstep : bestFold (p :: rest) (false, q, a) =
          bestFold rest (false, p.2, p.1) := by
        simp [bestFold, hq]
      rcases ih p.2 p.1 with ⟨heq, hle⟩ | ⟨idx, p', hget, heq, hlt, hle, hfirst⟩
      · exact ⟨0, p, rfl, by rw [hstep, heq], hq, by
          intro r hr
          rcases List.mem_cons.mp hr with h | h
          · exact le_of_eq (by rw [h])
          · exact hle r h, by intro j hj; omega⟩
      · refine ⟨idx + 1, p', by simpa using hget, by rw [hstep, heq],
          lt_trans hq hlt, ?_, ?_⟩
        · intro r hr
          rcases List.mem_cons.mp hr with h | h
          · exact le_of_lt (by rw [h]; exact hlt)
          · exact hle r h
        · intro j hj r hget'
          cases j with
          | zero =>
            rw [List.get?_cons_zero] at hget'
            have hr := Option.some.inj hget'
            rw [← hr]
            exact hlt
          | succ j' =>
            exact hfirst j' (by omega) r (by simpa using hget')
    · have hstep : bestFold (p :: rest) (false, q, a) =
          bestFold rest (false, q, a) := by
        simp [bestFold, hq]
      rcases ih q a with ⟨heq, hle⟩ | ⟨idx, p', hget, heq, hlt, hle, hfirst⟩
      · left
        refine ⟨by rw [hstep, heq], ?_⟩
        intro r hr
        rcases List.mem_cons.mp hr with h | h
        · rw [h]; exact le_of_not_lt hq
        · exact hle r h
      · right
        refine ⟨idx + 1, p', by simpa using hget, by rw [hstep, heq], hlt, ?_, ?_⟩
        · intro r hr
          rcases List.mem_cons.mp hr with h | h
          · have hrq : r.2 ≤ q := by rw [h]; exact le_of_not_lt hq
            exact le_trans hrq (le_of_lt hlt)
          · exact hle r h
        · intro j hj r hget'
          cases j with
          | zero =>
            rw [List.get?_cons_zero] at hget'
            have hr := Option.some.inj hget'
            rw [← hr]
            exact lt_of_le_of_lt (le_of_not_lt hq) hlt
          | succ j' =>
            exact hfirst j' (by omega) r (by simpa using hget')

theorem bestFold_first (ps : List ((Int × Int) × Rat)) (hne : ps ≠ [])
    (q0 : Rat) (a0 : Int × Int) :
    ∃ idx p, ps.get? idx = some p ∧
      bestFold ps (true, q0, a0) = (false, p.2, p.1) ∧
      (∀ r ∈ ps, r.2 ≤ p.2) ∧
      (∀ j, j < idx → ∀ r, ps.get? j = some r → r.2 < p.2) := by
  cases ps with
  | nil => exact absurd rfl hne
  | cons p rest =>
    have hstep : bestFold (p :: rest) (true, q0, a0) =
        bestFold rest (false, p.2, p.1) := by
      simp [bestFold]
    rcases bestFold_false rest p.2 p.1 with ⟨heq, hle⟩ |
        ⟨idx, p', hget, heq, hlt, hle, hfirst⟩
    · exact ⟨0, p, rfl, by rw [hstep, heq], by
        intro r hr
        rcases List.mem_cons.mp hr with h | h
        · exact le_of_eq (by rw [h])
        · exact hle r h, by intro j hj; omega⟩
    · refine ⟨idx + 1, p', by simpa using hget, by rw [hstep, heq], ?_, ?_⟩
      · intro r hr
        rcases List.mem_cons.mp hr with h | h
        · exact le_of_lt (by rw [h]; exact hlt)
        · exact hle r h
      · intro j hj r hget'
        cases j with
        | zero =>
          rw [List.get?_cons_zero] at hget'
          have hr := Option.some.inj hget'
          rw [← hr]
          exact hlt
        | succ j' =>
          exact hfirst j' (by omega) r (by simpa using hget')

/-- C7.  The exploitation branch of `FetchMove` evaluates the table value of
every empty cell of the state in row-major order (the inspected cells are
exactly `emptiesRowMajor s`), and, when at least one empty cell exists,
returns the action at the first position of the inspected value sequence
achieving its maximum: the chosen action's value bounds every inspected
value, and every strictly earlier inspected value is strictly below it. -/
theorem c7_exploit_first_seen_argmax (m n k : Int) (g : List (List Int))
    (id : Int) (s : List (List Int)) (tbl : Table) :
    ((scanPairs m n k g id s tbl).map Prod.fst = emptiesRowMajor s) ∧
    (scanPairs m n k g id s tbl ≠ [] →
      ∃ idx p, (scanPairs m n k g id s tbl).get? idx = some p ∧
        (exploit m n k g id s tbl).act = p.1 ∧
        (exploit m n k g id s tbl).qMax = p.2 ∧
        (∀ r ∈ scanPairs m n k g id s tbl, r.2 ≤ p.2) ∧
        (∀ j, j < idx → ∀ r,
          (scanPairs m n k g id s tbl).get? j = some r → r.2 < p.2)) := by
  constructor
  · exact scanRows_cells m n k g id s s 0 tbl
  · intro hne
    obtain ⟨idx, p, hget, heq, hle, hfirst⟩ :=
      bestFold_first (scanPairs m n k g id s tbl) hne 0 (0, 0)
    refine ⟨idx, p, hget, ?_, ?_, hle, hfirst⟩
    · show (exploit m n k g id s tbl).act = p.1
      rw [exploit, exploitRows_scan]
      show (mkAcc (bestFold (scanPairs m n k g id s tbl) (true, 0, (0, 0))) _).act = p.1
      rw [heq]
      rfl
    · show (exploit m n k g id s tbl).qMax = p.2
      rw [exploit, exploitRows_scan]
      show (mkAcc (bestFold (scanPairs m n k g id s tbl) (true, 0, (0, 0))) _).qMax = p.2
      rw [heq]
      rfl

/-- Witness for C7: on the 2×1 state `[[0, 0]]` with an empty table, the
exploitation loop inspects both cells and returns the first maximal one. -/
theorem c7_exploit_witness :
    ∃ idx p, (scanPairs 2 1 2 [[0, 0]] 1 [[0, 0]] []).get? idx = some p ∧
      (exploit 2 1 2 [[0, 0]] 1 [[0, 0]] []).act = p.1 ∧
      (exploit 2 1 2 [[0, 0]] 1 [[0, 0]] []).qMax = p.2 ∧
      (∀ r ∈ scanPairs 2 1 2 [[0, 0]] 1 [[0, 0]] [], r.2 ≤ p.2) ∧
      (∀ j, j < idx → ∀ r,
        (scanPairs 2 1 2 [[0, 0]] 1 [[0, 0]] []).get? j = some r → r.2 < p.2) :=
  (c7_exploit_first_seen_argmax 2 1 2 [[0, 0]] 1 [[0, 0]] []).2 (by decide)

/-- Store of row slices modelling the Go heap: an index is a slice identity
(one `[]int` backing array), its entry the row's contents.  A grid value is
a list of row ids, as a Go `[][]int` is a slice of row slice headers. -/
abbrev RowStore := List (List Int)

/-- `MNKState.Clone` (src/game/bitmap_board.go:304-312) in the store model:
for each row of the state, `make` allocates a fresh row (a new id at the end
of the store) and `copy` fills it with the contents of the source row;
returns the grown store and the fresh row ids in order. -/
def cloneRows : RowStore → List Nat → RowStore × List Nat
  | st, [] => (st, [])
  | st, r :: rest =>
    let st1 := st ++ [st.getD r []]
    let pr := cloneRows st1 rest
    (pr.1, st.length :: pr.2)

/-- Reading a whole grid value through its row ids. -/
def readGrid (st : RowStore) (refs : List Nat) : List (List Int) :=
  refs.map fun r => st.getD r []

/-- Mutating cell `(y, x)` of a grid value in place: writes through the row
id at position `y`. -/
def writeCell (st : RowStore) (refs : List Nat) (y x : Nat) (v : Int) :
    RowStore :=
  match refs.get? y with
  | some r => st.set r ((st.getD r []).set x v)
  | none => st

theorem cloneRows_grows (refs : List Nat) :
    ∀ st : RowStore, ∃ ext, (cloneRows st refs).1 = st ++ ext := by
  induction refs with
  | nil => intro st; exact ⟨[], by simp [cloneRows]⟩
  | cons r rest ih =>
    intro st
    obtain ⟨ext, hext⟩ := ih (st ++ [st.getD r []])
    exact ⟨[st.getD r []] ++ ext, by
      simp only [cloneRows, hext, List.append_assoc]⟩

theorem cloneRows_fresh (refs : List Nat) :
    ∀ st : RowStore, ∀ r' ∈ (cloneRows st refs).2, st.length ≤ r' := by
  induction refs with
  | nil => intro st r' hr'; simp [cloneRows] at hr'
  | cons r rest ih =>
    intro st r' hr'
    simp only [cloneRows, List.mem_cons] at hr'
    rcases hr' with h | h
    · omega
    · have := ih (st ++ [st.getD r []]) r' h
      simp at this
      omega

theorem getD_append_left (l ext : List (List Int)) (r : Nat)
    (h : r < l.length) : (l ++ ext).getD r [] = l.getD r [] := by
  simp [List.getD, List.getElem?_append_left h]

theorem cloneRows_preserves (refs : List Nat) (st : RowStore) (r : Nat)
    (h : r < st.length) : (cloneRows st refs).1.getD r [] = st.getD r [] := by
  obtain ⟨ext, hext⟩ := cloneRows_grows refs st
  rw [hext, getD_append_left _ _ _ h]

theorem cloneRows_contents (refs : List Nat) :
    ∀ st : RowStore, (∀ r ∈ refs, r < st.length) →
      readGrid (cloneRows st refs).1 (cloneRows st refs).2 = readGrid st refs := by
  induction refs with
  | nil => intro st _; rfl
  | cons r rest ih =>
    intro st hvalid
    have hr : r < st.length := hvalid r (List.mem_cons_self r rest)
    have hrest : ∀ r' ∈ rest, r' < (st ++ [st.getD r []]).length := by
      intro r' hr'
      have := hvalid r' (List.mem_cons_of_mem r hr')
      simp
      omega
    have hhead : (cloneRows (st ++ [st.getD r []]) rest).1.getD st.length [] =
        st.getD r [] := by
      rw [cloneRows_preserves rest _ st.length (by simp)]
      simp [List.getD, List.getElem?_append_right (le_refl st.length)]
    have htail := ih (st ++ [st.getD r []]) hrest
    have htail' : readGrid (st ++ [st.getD r []]) rest = readGrid st rest := by
      simp only [readGrid]
      apply List.map_congr_left
      intro r' hr'
      exact getD_append_left st [st.getD r []] r'
        (hvalid r' (List.mem_cons_of_mem r hr'))
    simp only [cloneRows, readGrid, List.map_cons]
    rw [show (cloneRows (st ++ [st.getD r []]) rest).1.getD st.length [] =
        st.getD r [] from hhead]
    congr 1
    calc (cloneRows (st ++ [st.getD r []]) rest).2.map
          (fun r' => (cloneRows (st ++ [st.getD r []]) rest).1.getD r' [])
        = readGrid (st ++ [st.getD r []]) rest := htail
      _ = readGrid st rest := htail'

theorem getD_set_ne (l : List (List Int)) (i j : Nat) (h : i ≠ j)
    (v : List Int) : (l.set i v).getD j [] = l.getD j [] := by
  simp [List.getD, List.getElem?_set_ne h]

theorem readGrid_set_ne (st : RowStore) (brefs : List Nat) (r' : Nat)
    (hb : ∀ r ∈ brefs, r ≠ r') (w : List Int) :
    readGrid (st.set r' w) brefs = readGrid st brefs := by
  simp only [readGrid]
  apply List.map_congr_left
  intro r hr
  exact getD_set_ne _ _ _ (fun h => hb r hr (h.symm)) w

/-- C9.  In the store model, `GetState` (a `Clone` of the grid) produces a
snapshot with the same contents as the grid; the grid rows themselves are
untouched by the clone (so two consecutive `GetState` calls read equal
grids); and any mutation through the snapshot's fresh rows leaves every read
of the board's own rows unchanged — deep-copy isolation. -/
theorem c9_getstate_deep_copy_isolation (st : RowStore) (brefs : List Nat)
    (hvalid : ∀ r ∈ brefs, r < st.length) :
    (readGrid (cloneRows st brefs).1 (cloneRows st brefs).2 =
      readGrid st brefs) ∧
    (readGrid (cloneRows st brefs).1 brefs = readGrid st brefs) ∧
    (∀ y x : Nat, ∀ v : Int,
      readGrid (writeCell (cloneRows st brefs).1 (cloneRows st brefs).2 y x v)
          brefs =
        readGrid st brefs) := by
  refine ⟨cloneRows_contents brefs st hvalid, ?_, ?_⟩
  · simp only [readGrid]
    apply List.map_congr_left
    intro r hr
    exact cloneRows_preserves brefs st r (hvalid r hr)
  · intro y x v
    have hpres : readGrid (cloneRows st brefs).1 brefs = readGrid st brefs := by
      simp only [readGrid]
      apply List.map_congr_left
      intro r hr
      exact cloneRows_preserves brefs st r (hvalid r hr)
    rcases hget : (cloneRows st brefs).2.get? y with _ | r'
    · simp only [writeCell, hget]
      exact hpres
    · have hmem : r' ∈ (cloneRows st brefs).2 := List.get?_mem hget
      have hfresh := cloneRows_fresh brefs st r' hmem
      simp only [writeCell, hget]
      rw [readGrid_set_ne _ brefs r'
        (fun r hr => by have := hvalid r hr; omega) _]
      exact hpres

/-- Witness for C9: a concrete two-row board grid in a store holding exactly
its rows. -/
theorem c9_getstate_witness :
    (readGrid (cloneRows [[1, 0], [0, 2]] [0, 1]).1
        (cloneRows [[1, 0], [0, 2]] [0, 1]).2 =
      readGrid [[1, 0], [0, 2]] [0, 1]) ∧
    (readGrid (cloneRows [[1, 0], [0, 2]] [0, 1]).1 [0, 1] =
      readGrid [[1, 0], [0, 2]] [0, 1]) ∧
    (∀ y x : Nat, ∀ v : Int,
      readGrid (writeCell (cloneRows [[1, 0], [0, 2]] [0, 1]).1
          (cloneRows [[1, 0], [0, 2]] [0, 1]).2 y x v) [0, 1] =
        readGrid [[1, 0], [0, 2]] [0, 1]) :=
  c9_getstate_deep_copy_isolation [[1, 0], [0, 2]] [0, 1] (by decide)

end MnkAgent
